import Mathlib

/-!
Verification development for the tool-augmented agent in `agent.cxx`.

The C++ program is shallowly embedded:

* `JsonVal` models `nlohmann::json` values (null / bool / number / string /
  array / object); numbers are modelled as integers, which covers every
  number the program itself constructs.
* `Tool`, `ToolRegistry` model the `Tool` class and `ToolRegistry`
  (`std::map<std::string, Tool>`); the map is embedded as an association
  list kept sorted by key under byte-lexicographic string order, which is
  exactly the iteration/lookup discipline of `std::map` with the default
  `std::less<std::string>` comparator.
* `Agent` models the `Agent` class; `process_blocks` / `process_response` /
  `run_iteration` / `Agent.run` mirror `Agent::process_response`,
  `Agent::run_iteration` and `Agent::run`.  The network transport is
  abstracted as an oracle giving, per iteration, the outcome of the HTTP
  round-trip; fallible C++ paths (uncaught exceptions) are embedded with
  `Except`.
* Two ghost fields (`api_calls`, `executed`) record, without influencing
  control flow, how many backend calls were made and which tools were
  dispatched; they exist only so that resource-style properties can be
  stated.
-/

/-- JsonVal models `nlohmann::json` values.  Objects keep their fields as an
ordered association list; the program only ever reads fields by key, so the
field order never matters to the embedded semantics. -/
inductive JsonVal where
  | null
  | bool (b : Bool)
  | num (n : Int)
  | str (s : String)
  | arr (elems : List JsonVal)
  | obj (fields : List (String × JsonVal))

/-- jGet models reading `j[k]` on a `const json` object: the value stored
under key `k`, or `null` when `j` is not an object or lacks the key. -/
def jGet (j : JsonVal) (k : String) : JsonVal :=
  match j with
  | .obj fields =>
    match fields.find? (fun p => p.fst == k) with
    | some p => p.snd
    | none => .null
  | _ => .null

/-- jsonContains models `j.contains(k)`. -/
def jsonContains (j : JsonVal) (k : String) : Bool :=
  match j with
  | .obj fields => fields.any (fun p => p.fst == k)
  | _ => false

/-- jsonEmpty models `j.empty()`: true for `null` and for empty arrays and
objects, false otherwise. -/
def jsonEmpty : JsonVal → Bool
  | .null => true
  | .arr [] => true
  | .obj [] => true
  | _ => false

/-- jElements models range-`for` iteration over a json value: an array
yields its elements, an object its mapped values, `null` yields nothing,
and a primitive yields itself once. -/
def jElements : JsonVal → List JsonVal
  | .arr xs => xs
  | .obj fields => fields.map Prod.snd
  | .null => []
  | x => [x]

/-- jIsStr models the comparison `j == "s"` between a json value and a
string literal: true exactly when `j` is that string. -/
def jIsStr (j : JsonVal) (s : String) : Bool :=
  match j with
  | .str t => t == s
  | _ => false

/-- charListLtb is lexicographic comparison of character lists by code
point.  UTF-8 encoding is order-preserving, so this coincides with the
byte-lexicographic order `std::less<std::string>` uses. -/
def charListLtb : List Char → List Char → Bool
  | [], [] => false
  | [], _ :: _ => true
  | _ :: _, [] => false
  | a :: as, b :: bs =>
    if a.val.toNat < b.val.toNat then true
    else if b.val.toNat < a.val.toNat then false
    else charListLtb as bs

/-- strLt models `operator<` on `std::string` (byte-lexicographic). -/
def strLt (a b : String) : Bool := charListLtb a.data b.data

theorem charListLtb_irrefl : ∀ l : List Char, charListLtb l l = false := by
  intro l
  induction l with
  | nil => rfl
  | cons a as ih => simp [charListLtb, ih]

theorem charListLtb_eq_of_not_lt : ∀ l1 l2 : List Char,
    charListLtb l1 l2 = false → charListLtb l2 l1 = false → l1 = l2 := by
  intro l1
  induction l1 with
  | nil =>
    intro l2 h12 _
    cases l2 with
    | nil => rfl
    | cons b bs => simp [charListLtb] at h12
  | cons a as ih =>
    intro l2 h12 h21
    cases l2 with
    | nil => simp [charListLtb] at h21
    | cons b bs =>
      simp only [charListLtb] at h12 h21
      by_cases hab : a.val.toNat < b.val.toNat
      · simp [hab] at h12
      · by_cases hba : b.val.toNat < a.val.toNat
        · simp [hba, hab] at h21
        · have hv : a.val.toNat = b.val.toNat := by omega
          have hc : a = b := Char.ext (UInt32.ext hv)
          simp [hab, hba] at h12 h21
          rw [hc, ih bs h12 h21]

theorem charListLtb_trans : ∀ l1 l2 l3 : List Char,
    charListLtb l1 l2 = true → charListLtb l2 l3 = true →
    charListLtb l1 l3 = true := by
  intro l1
  induction l1 with
  | nil =>
    intro l2 l3 h12 h23
    cases l2 with
    | nil => exact absurd h12 (by simp [charListLtb])
    | cons b bs =>
      cases l3 with
      | nil => simp [charListLtb] at h23
      | cons c cs => simp [charListLtb]
  | cons a as ih =>
    intro l2 l3 h12 h23
    cases l2 with
    | nil => simp [charListLtb] at h12
    | cons b bs =>
      cases l3 with
      | nil => simp [charListLtb] at h23
      | cons c cs =>
        simp only [charListLtb] at h12 h23 ⊢
        by_cases hab : a.val.toNat < b.val.toNat
        · by_cases hbc : b.val.toNat < c.val.toNat
          · have : a.val.toNat < c.val.toNat := by omega
            simp [this]
          · by_cases hcb : c.val.toNat < b.val.toNat
            · simp [hbc, hcb] at h23
            · have : a.val.toNat < c.val.toNat := by omega
              simp [this]
        · by_cases hba : b.val.toNat < a.val.toNat
          · simp [hab, hba] at h12
          · have hv : a.val.toNat = b.val.toNat := by omega
            by_cases hbc : b.val.toNat < c.val.toNat
            · have : a.val.toNat < c.val.toNat := by omega
              simp [this]
            · by_cases hcb : c.val.toNat < b.val.toNat
              · simp [hbc, hcb] at h23
              · have hac : ¬ a.val.toNat < c.val.toNat := by omega
                have hca : ¬ c.val.toNat < a.val.toNat := by omega
                simp only [hab, hba, if_false, if_true] at h12
                simp only [hbc, hcb, if_false, if_true] at h23
                simp [hac, hca]
                exact ih bs cs (by simpa using h12) (by simpa using h23)

theorem strLt_irrefl (a : String) : strLt a a = false :=
  charListLtb_irrefl a.data

theorem strLt_eq_of_not_lt (a b : String)
    (h1 : strLt a b = false) (h2 : strLt b a = false) : a = b :=
  String.ext (charListLtb_eq_of_not_lt a.data b.data h1 h2)

theorem strLt_trans (a b c : String)
    (h1 : strLt a b = true) (h2 : strLt b c = true) : strLt a c = true :=
  charListLtb_trans a.data b.data c.data h1 h2

/-- Tool models the C++ `Tool` class.  The executor capability is embedded
as a function into `Except String String`: a `.error msg` outcome stands
for the executor throwing a `std::exception` whose `what()` is `msg`. -/
structure Tool where
  name : String
  description : String
  input_schema : JsonVal
  executor : JsonVal → Except String String

/-- Tool.to_json models `Tool::to_json`. -/
def Tool.to_json (t : Tool) : JsonVal :=
  .obj [("name", .str t.name),
        ("description", .str t.description),
        ("input_schema", t.input_schema)]

/-- ToolRegistry models the C++ `ToolRegistry` class.  Its
`std::map<std::string, Tool>` member is embedded as an association list
kept sorted by key in `strLt` order, which is exactly the layout `std::map`
iterates over with the default comparator. -/
structure ToolRegistry where
  tools : List (String × Tool)

/-- mapInsert models `tools[tool.name] = tool` on the sorted association
list: insert at the ordered position, replacing an entry whose key is
equivalent (neither strictly smaller nor strictly greater). -/
def mapInsert (tool : Tool) : List (String × Tool) → List (String × Tool)
  | [] => [(tool.name, tool)]
  | (k, v) :: rest =>
    if strLt tool.name k then (tool.name, tool) :: (k, v) :: rest
    else if strLt k tool.name then (k, v) :: mapInsert tool rest
    else (tool.name, tool) :: rest

/-- ToolRegistry.empty models the default-constructed registry. -/
def ToolRegistry.empty : ToolRegistry := ⟨[]⟩

/-- ToolRegistry.register_tool models `ToolRegistry::register_tool`
(the `std::cout` logging is I/O and not modelled). -/
def ToolRegistry.register_tool (r : ToolRegistry) (tool : Tool) : ToolRegistry :=
  ⟨mapInsert tool r.tools⟩

/-- ToolRegistry.execute models `ToolRegistry::execute`.  The method is
non-`const` in C++, so the embedding threads the registry through and
returns it alongside the result string; the body performs `tools.find`,
invokes the executor inside `try`/`catch (const std::exception&)`, and
otherwise builds the not-found string. -/
def ToolRegistry.execute (r : ToolRegistry) (tool_name : String) (params : JsonVal) :
    String × ToolRegistry :=
  match r.tools.find? (fun p => p.fst == tool_name) with
  | some p =>
    (match p.snd.executor params with
     | .ok s => s
     | .error e => "Error: " ++ e, r)
  | none => ("Error: Tool \x27" ++ tool_name ++ "\x27 not found", r)

/-- ToolRegistry.get_tool_definitions models
`ToolRegistry::get_tool_definitions`: a json array of `to_json` records in
map iteration order. -/
def ToolRegistry.get_tool_definitions (r : ToolRegistry) : JsonVal :=
  .arr (r.tools.map (fun p => p.snd.to_json))

/-- ToolRegistry.has_tools models `ToolRegistry::has_tools`. -/
def ToolRegistry.has_tools (r : ToolRegistry) : Bool :=
  !r.tools.isEmpty

/-- Agent models the C++ `Agent` class.  `api_calls` and `executed` are
ghost fields invisible to the program: they log the number of
`call_api` invocations and the sequence of tool dispatches performed by
`process_response`, so that resource and dispatch properties are
statable. -/
structure Agent where
  api_key : String
  model : String
  tool_registry : ToolRegistry
  conversation_history : List JsonVal
  max_iterations : Int
  api_calls : Nat
  executed : List (String × JsonVal)

/-- default_model is the default `model_name` constructor argument. -/
def default_model : String := "claude-sonnet-4-20250514"

/-- default_max_iterations is the default `max_iter` constructor
argument. -/
def default_max_iterations : Int := 10

/-- Agent.init models the `Agent` constructor: empty history, given key,
model and bound; ghost logs start empty. -/
def Agent.init (key model_name : String) (max_iter : Int) : Agent :=
  { api_key := key
    model := model_name
    tool_registry := ToolRegistry.empty
    conversation_history := []
    max_iterations := max_iter
    api_calls := 0
    executed := [] }

/-- pushMsg appends one message to the conversation history
(`conversation_history.push_back`). -/
def pushMsg (st : Agent) (m : JsonVal) : Agent :=
  { st with conversation_history := st.conversation_history ++ [m] }

/-- userTextMsg is the plain-string user message `Agent::run` appends. -/
def userTextMsg (s : String) : JsonVal :=
  .obj [("role", .str "user"), ("content", .str s)]

/-- assistantMsg is the assistant message `Agent::process_response`
appends, carrying the accumulated content blocks. -/
def assistantMsg (content : List JsonVal) : JsonVal :=
  .obj [("role", .str "assistant"), ("content", .arr content)]

/-- toolResultMsg is the user message carrying a single `tool_result`
block that `Agent::process_response` appends after dispatching a tool. -/
def toolResultMsg (tool_use_id result : String) : JsonVal :=
  .obj [("role", .str "user"),
        ("content", .arr [ .obj [("type", .str "tool_result"),
                                 ("tool_use_id", .str tool_use_id),
                                 ("content", .str result)] ])]

/-- BackendResult abstracts one HTTP round-trip of `call_api`: the server
answered with a non-200 status, with a 200 whose body `json::parse`
rejects, or with a 200 whose body parses to the given value.  A run
consults an oracle `Int → BackendResult` indexed by the iteration counter;
quantifying over all oracles covers every possible backend behaviour. -/
inductive BackendResult where
  | badStatus
  | unparseable
  | parsed (body : JsonVal)

/-- call_api models `Agent::call_api` given the round-trip outcome: a
non-200 status yields the empty json object, a body that fails
`json::parse` raises an exception (embedded as `.error`, which nothing in
the program catches), and otherwise the parsed body is returned. -/
def call_api (res : BackendResult) : Except String JsonVal :=
  match res with
  | .badStatus => .ok (.obj [])
  | .unparseable => .error "json parse error"
  | .parsed j => .ok j

/-- asStr models the conversion `std::string x = j;` on a json value: it
yields the string, or throws a type error (embedded as `.error`) when the
value is not a string. -/
def asStr : JsonVal → Except String String
  | .str s => .ok s
  | _ => .error "json type error"

/-- StepOutcome is the result of interpreting one backend response.  In
the C++ source the `tool_use` branch of `Agent::process_response` ends in
the tail call `return run_iteration(iteration + 1)`; the embedding makes
that tail call explicit as the `.recurse` outcome, consumed by
`run_iteration`. -/
inductive StepOutcome where
  | done (success : Bool) (st : Agent)
  | recurse (st : Agent)

/-- process_blocks models the `for` loop of `Agent::process_response` over
`response["content"]`, with `acc` the accumulated `assistant_content` and
`has_tool_use` the flag of the source.  A `text` block is accumulated (its
printing is I/O); the first `tool_use` block dispatches the tool, appends
the assistant/tool-result message pair and either recurses into the next
iteration or stops with `false` when the bound is reached — in the C++
source this `return` aborts the loop, so any blocks after the first
`tool_use` are never visited; any other block is accumulated silently.
Reading `block["name"]` or `block["id"]` as `std::string` when the field
is not a string throws (embedded as `.error`). -/
def process_blocks (st : Agent) (iteration : Int) :
    List JsonVal → List JsonVal → Bool → Except String StepOutcome
  | [], acc, has_tool_use =>
    if !has_tool_use then
      .ok (.done true (pushMsg st (assistantMsg acc)))
    else
      .ok (.done true st)
  | block :: rest, acc, has_tool_use =>
    if jIsStr (jGet block "type") "text" then
      process_blocks st iteration rest (acc ++ [block]) has_tool_use
    else if jIsStr (jGet block "type") "tool_use" then
      match asStr (jGet block "name") with
      | .error e => .error e
      | .ok tool_name =>
        match asStr (jGet block "id") with
        | .error e => .error e
        | .ok tool_id =>
          let tool_input := jGet block "input"
          let er := st.tool_registry.execute tool_name tool_input
          let st1 : Agent :=
            { st with tool_registry := er.snd,
                      executed := st.executed ++ [(tool_name, tool_input)] }
          let st2 := pushMsg st1 (assistantMsg (acc ++ [block]))
          let st3 := pushMsg st2 (toolResultMsg tool_id er.fst)
          if iteration < st.max_iterations then
            .ok (.recurse st3)
          else
            .ok (.done false st3)
    else
      process_blocks st iteration rest (acc ++ [block]) has_tool_use

/-- process_response models `Agent::process_response` up to the point
where it either returns or tail-calls `run_iteration`: an empty response
or one without a `content` field fails with `false`; otherwise the content
blocks are interpreted in order. -/
def process_response (st : Agent) (response : JsonVal) (iteration : Int) :
    Except String StepOutcome :=
  if jsonEmpty response || !jsonContains response "content" then
    .ok (.done false st)
  else
    process_blocks st iteration (jElements (jGet response "content")) [] false

/-- run_iteration models `Agent::run_iteration`: issue one backend call
(the request contains the history snapshot and, when `has_tools()`, the
tool definitions — both absorbed by the oracle), fail the run on an empty
response, and otherwise interpret it, looping on a `.recurse` outcome
exactly where the C++ tail call recursed with `iteration + 1`.  The `fuel`
argument only bounds the recursion depth for Lean; `Agent.run` supplies
enough fuel that the `iteration < max_iterations` guard always stops the
loop first. -/
def run_iteration : Nat → Agent → (Int → BackendResult) → Int →
    Except String (Bool × Agent)
  | 0, _, _, _ => .error "fuel exhausted"
  | fuel + 1, st, oracle, iteration =>
    let st1 : Agent := { st with api_calls := st.api_calls + 1 }
    match call_api (oracle iteration) with
    | .error e => .error e
    | .ok response =>
      if jsonEmpty response then
        .ok (false, st1)
      else
        match process_response st1 response iteration with
        | .error e => .error e
        | .ok (.done b st2) => .ok (b, st2)
        | .ok (.recurse st2) => run_iteration fuel st2 oracle (iteration + 1)

/-- Agent.run models `Agent::run`: append the user message, then start
`run_iteration(1)`.  The C++ `run` returns `void` and discards the boolean
produced by `run_iteration`; the embedding surfaces that boolean so the
outcome is observable, and surfaces as `.error` an exception escaping the
run (nothing in `run` or `main` catches). -/
def Agent.run (st : Agent) (user_input : String) (oracle : Int → BackendResult) :
    Except String (Bool × Agent) :=
  let st1 := pushMsg st (userTextMsg user_input)
  run_iteration (st.max_iterations.toNat + 1) st1 oracle 1

/-- Agent.reset models `Agent::reset`. -/
def Agent.reset (st : Agent) : Agent :=
  { st with conversation_history := [] }

/-- Agent.register_tool models `Agent::register_tool`. -/
def Agent.register_tool (st : Agent) (t : Tool) : Agent :=
  { st with tool_registry := st.tool_registry.register_tool t }

/-- Reachable characterises the agent sessions obtainable through the
public surface: construction, tool registration, completed runs (a run
whose escaped exception kills the process leaves no session), and reset. -/
inductive Reachable : Agent → Prop
  | init (key model_name : String) (max_iter : Int) :
      Reachable (Agent.init key model_name max_iter)
  | register (st : Agent) (t : Tool) :
      Reachable st → Reachable (st.register_tool t)
  | step (st : Agent) (user_input : String) (oracle : Int → BackendResult)
      (b : Bool) (st2 : Agent) :
      Reachable st → Agent.run st user_input oracle = .ok (b, st2) →
      Reachable st2
  | reset (st : Agent) : Reachable st → Reachable st.reset

/-- isToolUseBlock holds of a content block whose `type` field is the
string `tool_use`. -/
def isToolUseBlock (b : JsonVal) : Bool := jIsStr (jGet b "type") "tool_use"

/-- isToolResultBlock holds of a content block whose `type` field is the
string `tool_result`. -/
def isToolResultBlock (b : JsonVal) : Bool := jIsStr (jGet b "type") "tool_result"

/-- MsgBlocks is the content-block sequence of a message; a message whose
content is a plain string (or anything but an array) has no blocks. -/
def MsgBlocks (m : JsonVal) : List JsonVal :=
  match jGet m "content" with
  | .arr bs => bs
  | _ => []

/-- SafeMsg: if the message has role `assistant` then none of its content
blocks is a `ToolUse` block. -/
def SafeMsg (m : JsonVal) : Prop :=
  jGet m "role" = .str "assistant" → ∀ b ∈ MsgBlocks m, isToolUseBlock b = false

/-- PairedMsg a u: u is a user-role message answering every `ToolUse`
block of a with a single matching `ToolResult` block. -/
def PairedMsg (a u : JsonVal) : Prop :=
  jGet u "role" = .str "user" ∧
  ∀ b ∈ MsgBlocks a, isToolUseBlock b = true →
    ∃ rb, (MsgBlocks u).filter isToolResultBlock = [rb] ∧
          jGet rb "tool_use_id" = jGet b "id"

/-- HistOkI: the history is a concatenation of messages that carry no
`ToolUse` obligation and of adjacent assistant/tool-result pairs. -/
inductive HistOkI : List JsonVal → Prop
  | nil : HistOkI []
  | safe (m : JsonVal) (rest : List JsonVal) :
      SafeMsg m → HistOkI rest → HistOkI (m :: rest)
  | pair (a u : JsonVal) (rest : List JsonVal) :
      jGet a "role" = .str "assistant" → PairedMsg a u → HistOkI rest →
      HistOkI (a :: u :: rest)

/-- HistOk is the invariant exactly as the specification states it: every
assistant message containing a `ToolUse` block is immediately followed by
a user message containing exactly one `ToolResult` block whose
`tool_use_id` equals that `ToolUse` block's id. -/
def HistOk (h : List JsonVal) : Prop :=
  ∀ (i : Nat) (hi : i < h.length) (b : JsonVal),
    jGet (h.get ⟨i, hi⟩) "role" = .str "assistant" →
    b ∈ MsgBlocks (h.get ⟨i, hi⟩) →
    isToolUseBlock b = true →
    ∃ hj : i + 1 < h.length,
      jGet (h.get ⟨i + 1, hj⟩) "role" = .str "user" ∧
      ∃ rb, (MsgBlocks (h.get ⟨i + 1, hj⟩)).filter isToolResultBlock = [rb] ∧
            jGet rb "tool_use_id" = jGet b "id"

theorem histOkI_append {h e : List JsonVal} (hh : HistOkI h) (he : HistOkI e) :
    HistOkI (h ++ e) := by
  induction hh with
  | nil => simpa using he
  | safe m rest hm _ ih => exact HistOkI.safe m (rest ++ e) hm ih
  | pair a u rest hrole hp _ ih => exact HistOkI.pair a u (rest ++ e) hrole hp ih

theorem histOkI_histOk {h : List JsonVal} (hh : HistOkI h) : HistOk h := by
  induction hh with
  | nil => intro i hi; simp at hi
  | safe m rest hm _ ih =>
    intro i hi b hrole hmem htu
    match i with
    | 0 =>
      simp only [List.get] at hrole hmem
      exact absurd (hm hrole b hmem) (by simp [htu])
    | i + 1 =>
      have hi2 : i < rest.length := by simpa using hi
      obtain ⟨hj, hrest⟩ := ih i hi2 b (by simpa using hrole) (by simpa using hmem) htu
      refine ⟨by simpa using Nat.succ_lt_succ hj, ?_⟩
      simpa using hrest
  | pair a u rest hrolea hp _ ih =>
    intro i hi b hrole hmem htu
    match i with
    | 0 =>
      obtain ⟨rb, hf, hid⟩ := hp.2 b (by simpa using hmem) htu
      refine ⟨by simp, ?_⟩
      exact ⟨hp.1, rb, hf, hid⟩
    | 1 =>
      have : jGet u "role" = .str "assistant" := by simpa using hrole
      rw [hp.1] at this
      simp at this
    | i + 2 =>
      have hi2 : i < rest.length := by simpa using hi
      obtain ⟨hj, hrest⟩ := ih i hi2 b (by simpa using hrole) (by simpa using hmem) htu
      refine ⟨by simpa using Nat.succ_lt_succ (Nat.succ_lt_succ hj), ?_⟩
      simpa using hrest

theorem msgBlocks_assistantMsg (content : List JsonVal) :
    MsgBlocks (assistantMsg content) = content := rfl

theorem role_assistantMsg (content : List JsonVal) :
    jGet (assistantMsg content) "role" = .str "assistant" := rfl

theorem role_userTextMsg (s : String) :
    jGet (userTextMsg s) "role" = .str "user" := rfl

theorem safeMsg_userTextMsg (s : String) : SafeMsg (userTextMsg s) := by
  intro hrole
  simp [userTextMsg, jGet] at hrole

theorem role_toolResultMsg (idv res : String) :
    jGet (toolResultMsg idv res) "role" = .str "user" := rfl

theorem safeMsg_assistantMsg_of_no_tu (content : List JsonVal)
    (h : ∀ x ∈ content, isToolUseBlock x = false) :
    SafeMsg (assistantMsg content) := by
  intro _ b hb
  exact h b (by simpa [msgBlocks_assistantMsg] using hb)

/-- RegSorted: the association list underlying the registry is strictly
sorted by key, as `std::map` keeps it. -/
def RegSorted (l : List (String × Tool)) : Prop :=
  List.Pairwise (fun p q => strLt p.fst q.fst = true) l

/-- RegistryWF: the registry is sorted and every entry is stored under its
tool's name (which `register_tool` guarantees). -/
def RegistryWF (r : ToolRegistry) : Prop :=
  RegSorted r.tools ∧ ∀ p ∈ r.tools, p.fst = p.snd.name

theorem mapInsert_mem {t : Tool} : ∀ {l : List (String × Tool)} {p : String × Tool},
    p ∈ mapInsert t l → p = (t.name, t) ∨ p ∈ l := by
  intro l
  induction l with
  | nil => intro p hp; simp [mapInsert] at hp; exact Or.inl hp
  | cons kv rest ih =>
    intro p hp
    simp only [mapInsert] at hp
    by_cases h1 : strLt t.name kv.fst = true
    · simp [h1] at hp
      rcases hp with h | h | h
      · exact Or.inl h
      · exact Or.inr (by simp [h])
      · exact Or.inr (by simp [h])
    · by_cases h2 : strLt kv.fst t.name = true
      · simp [h1, h2] at hp
        rcases hp with h | h
        · exact Or.inr (by simp [h])
        · rcases ih h with h3 | h3
          · exact Or.inl h3
          · exact Or.inr (by simp [h3])
      · simp [h1, h2] at hp
        rcases hp with h | h
        · exact Or.inl h
        · exact Or.inr (by simp [h])

theorem mapInsert_self_mem {t : Tool} : ∀ {l : List (String × Tool)},
    (t.name, t) ∈ mapInsert t l := by
  intro l
  induction l with
  | nil => simp [mapInsert]
  | cons kv rest ih =>
    simp only [mapInsert]
    by_cases h1 : strLt t.name kv.fst = true
    · simp [h1]
    · by_cases h2 : strLt kv.fst t.name = true
      · simp [h1, h2, ih]
      · simp [h1, h2]

theorem mapInsert_sorted {t : Tool} : ∀ {l : List (String × Tool)},
    RegSorted l → RegSorted (mapInsert t l) := by
  intro l
  induction l with
  | nil => intro _; simp [mapInsert, RegSorted]
  | cons kv rest ih =>
    intro hs
    rw [RegSorted, List.pairwise_cons] at hs
    obtain ⟨hk, hrest⟩ := hs
    simp only [mapInsert]
    by_cases h1 : strLt t.name kv.fst = true
    · simp only [h1, if_true]
      rw [RegSorted, List.pairwise_cons]
      constructor
      · intro q hq
        rcases (by simpa using hq : q = kv ∨ q ∈ rest) with h | h
        · rw [h]; exact h1
        · exact strLt_trans _ _ _ h1 (hk q h)
      · rw [RegSorted, List.pairwise_cons] at *
        exact ⟨hk, hrest⟩
    · by_cases h2 : strLt kv.fst t.name = true
      · rw [if_neg h1, if_pos h2, RegSorted, List.pairwise_cons]
        constructor
        · intro q hq
          rcases mapInsert_mem hq with h | h
          · rw [h]; exact h2
          · exact hk q h
        · exact ih hrest
      · have heq : t.name = kv.fst :=
          strLt_eq_of_not_lt _ _ (by simpa using h1) (by simpa using h2)
        rw [if_neg h1, if_neg h2, RegSorted, List.pairwise_cons]
        constructor
        · intro q hq
          rw [heq]
          exact hk q hq
        · exact hrest

theorem mapInsert_keysMatch {t : Tool} : ∀ {l : List (String × Tool)},
    (∀ p ∈ l, p.fst = p.snd.name) → ∀ p ∈ mapInsert t l, p.fst = p.snd.name := by
  intro l hl p hp
  rcases mapInsert_mem hp with h | h
  · rw [h]
  · exact hl p h

theorem registryWF_register {r : ToolRegistry} {t : Tool} (h : RegistryWF r) :
    RegistryWF (r.register_tool t) :=
  ⟨mapInsert_sorted h.1, mapInsert_keysMatch h.2⟩

theorem registryWF_empty : RegistryWF ToolRegistry.empty :=
  ⟨List.Pairwise.nil, by intro p hp; simp [ToolRegistry.empty] at hp⟩

theorem mapInsert_find? {t : Tool} : ∀ {l : List (String × Tool)}, RegSorted l →
    (mapInsert t l).find? (fun p => p.fst == t.name) = some (t.name, t) := by
  intro l
  induction l with
  | nil => intro _; simp [mapInsert]
  | cons kv rest ih =>
    intro hs
    rw [RegSorted, List.pairwise_cons] at hs
    obtain ⟨hk, hrest⟩ := hs
    simp only [mapInsert]
    by_cases h1 : strLt t.name kv.fst = true
    · simp [h1]
    · by_cases h2 : strLt kv.fst t.name = true
      · have hne : kv.fst ≠ t.name := by
          intro he
          rw [he] at h2
          exact absurd h2 (by simp [strLt_irrefl])
        rw [if_neg h1, if_pos h2]
        rw [List.find?_cons_of_neg _ (by simpa using hne)]
        exact ih hrest
      · rw [if_neg h1, if_neg h2]
        simp

theorem mapInsert_length_of_mem {t : Tool} : ∀ {l : List (String × Tool)},
    RegSorted l → t.name ∈ l.map Prod.fst →
    (mapInsert t l).length = l.length := by
  intro l
  induction l with
  | nil => intro _ hm; simp at hm
  | cons kv rest ih =>
    intro hs hm
    rw [RegSorted, List.pairwise_cons] at hs
    obtain ⟨hk, hrest⟩ := hs
    simp only [mapInsert]
    have hm2 : t.name = kv.fst ∨ t.name ∈ rest.map Prod.fst := by
      simpa using hm
    by_cases h1 : strLt t.name kv.fst = true
    · exfalso
      rcases hm2 with h | h
      · rw [← h] at h1
        exact absurd h1 (by simp [strLt_irrefl])
      · obtain ⟨q, hq, hqn⟩ := List.mem_map.mp h
        have h3 : strLt kv.fst t.name = true := by
          rw [← hqn]
          exact hk q hq
        have := strLt_trans _ _ _ h1 h3
        exact absurd this (by simp [strLt_irrefl])
    · by_cases h2 : strLt kv.fst t.name = true
      · have hm3 : t.name ∈ rest.map Prod.fst := by
          rcases hm2 with h | h
          · rw [← h] at h2
            exact absurd h2 (by simp [strLt_irrefl])
          · exact h
        rw [if_neg h1, if_pos h2]
        simp [ih hrest hm3]
      · rw [if_neg h1, if_neg h2]
        simp

theorem regSorted_keys_nodup {l : List (String × Tool)} (h : RegSorted l) :
    (l.map Prod.fst).Nodup := by
  have h2 : List.Pairwise (fun a b : String => strLt a b = true) (l.map Prod.fst) :=
    List.pairwise_map.mpr h
  refine h2.imp ?_
  intro a b hab he
  rw [he] at hab
  exact absurd hab (by simp [strLt_irrefl])

theorem registryWF_foldl (l : List Tool) :
    ∀ r : ToolRegistry, RegistryWF r →
    RegistryWF (l.foldl ToolRegistry.register_tool r) := by
  induction l with
  | nil => intro r hr; exact hr
  | cons t rest ih =>
    intro r hr
    exact ih _ (registryWF_register hr)

/-- cxToolA and friends are concrete tools used as test inputs. -/
def cxToolA : Tool :=
  { name := "a", description := "tool a", input_schema := .obj [],
    executor := fun _ => .ok "ra" }

def cxToolB : Tool :=
  { name := "b", description := "tool b", input_schema := .obj [],
    executor := fun _ => .ok "rb" }

def cxToolA2 : Tool :=
  { name := "a", description := "tool a, version two", input_schema := .obj [],
    executor := fun _ => .ok "ra2" }

/-- C4 is refuted: registering a tool named `b` and then a tool named `a`
makes `get_tool_definitions` export the `a` record first, because
`std::map` iterates in sorted key order; the insertion order `b`, `a` is
not preserved. -/
theorem c4_counterexample :
    ((ToolRegistry.empty.register_tool cxToolB).register_tool cxToolA).get_tool_definitions
      = .arr [cxToolA.to_json, cxToolB.to_json] ∧
    JsonVal.arr [cxToolA.to_json, cxToolB.to_json]
      ≠ .arr [cxToolB.to_json, cxToolA.to_json] := by
  constructor
  · rfl
  · simp [Tool.to_json, cxToolA, cxToolB]

theorem mapInsert_mem_of_ne (t : Tool) (p : String × Tool) : ∀ (l : List (String × Tool)),
    p ∈ l → p.fst ≠ t.name → p ∈ mapInsert t l := by
  intro l
  induction l with
  | nil =>
    intro h _
    simp at h
  | cons kv rest ih =>
    intro h hne
    rcases (by simpa using h : p = kv ∨ p ∈ rest) with h2 | h2
    · simp only [mapInsert]
      by_cases h3 : strLt t.name kv.fst = true
      · rw [if_pos h3]
        simp [h2]
      · by_cases h4 : strLt kv.fst t.name = true
        · rw [if_neg h3, if_pos h4]
          simp [h2]
        · have he : t.name = kv.fst :=
            strLt_eq_of_not_lt _ _ (by simpa using h3) (by simpa using h4)
          exact absurd (show p.fst = t.name by rw [h2]; exact he.symm) hne
    · simp only [mapInsert]
      by_cases h3 : strLt t.name kv.fst = true
      · rw [if_pos h3]
        simp [h2]
      · by_cases h4 : strLt kv.fst t.name = true
        · rw [if_neg h3, if_pos h4]
          simp [ih h2 hne]
        · rw [if_neg h3, if_neg h4]
          simp [h2]

theorem mapInsert_keys_iff (t : Tool) (nm : String) (l : List (String × Tool)) :
    nm ∈ (mapInsert t l).map Prod.fst ↔ (nm = t.name ∨ nm ∈ l.map Prod.fst) := by
  constructor
  · intro h
    obtain ⟨p, hp, hfst⟩ := List.mem_map.mp h
    rcases mapInsert_mem hp with h2 | h2
    · left
      rw [← hfst, h2]
    · right
      exact List.mem_map.mpr ⟨p, h2, hfst⟩
  · intro h
    rcases h with h | h
    · exact List.mem_map.mpr ⟨(t.name, t), mapInsert_self_mem, h.symm⟩
    · obtain ⟨p, hp, hfst⟩ := List.mem_map.mp h
      by_cases hne : p.fst = t.name
      · refine List.mem_map.mpr ⟨(t.name, t), mapInsert_self_mem, ?_⟩
        rw [← hfst]
        exact hne.symm
      · exact List.mem_map.mpr ⟨p, mapInsert_mem_of_ne t p l hp hne, hfst⟩

theorem foldl_register_keys (l : List Tool) : ∀ (r0 : ToolRegistry) (nm : String),
    nm ∈ (l.foldl ToolRegistry.register_tool r0).tools.map Prod.fst ↔
      (nm ∈ l.map Tool.name ∨ nm ∈ r0.tools.map Prod.fst) := by
  induction l with
  | nil =>
    intro r0 nm
    simp
  | cons t rest ih =>
    intro r0 nm
    rw [List.foldl_cons, ih (r0.register_tool t) nm]
    constructor
    · intro h
      rcases h with h | h
      · left
        simp [h]
      · rcases (mapInsert_keys_iff t nm r0.tools).mp h with h2 | h2
        · left
          simp [h2]
        · right
          exact h2
    · intro h
      rcases h with h | h
      · rcases (by simpa using h : nm = t.name ∨ nm ∈ rest.map Tool.name) with h2 | h2
        · right
          exact (mapInsert_keys_iff t nm r0.tools).mpr (Or.inl h2)
        · left
          exact h2
      · right
        exact (mapInsert_keys_iff t nm r0.tools).mpr (Or.inr h)

theorem countP_beq_of_sorted_mem : ∀ (ks : List String),
    List.Pairwise (fun a b => strLt a b = true) ks → ∀ nm, nm ∈ ks →
    ks.countP (fun k => k == nm) = 1 := by
  intro ks
  induction ks with
  | nil =>
    intro _ nm h
    simp at h
  | cons k rest ih =>
    intro hs nm hmem
    rw [List.pairwise_cons] at hs
    obtain ⟨hk, hrest⟩ := hs
    by_cases he : k = nm
    · rw [List.countP_cons]
      have h0 : rest.countP (fun k2 => k2 == nm) = 0 := by
        rw [List.countP_eq_zero]
        intro a ha
        have hlt := hk a ha
        have hne : a ≠ nm := by
          intro h2
          rw [he, h2] at hlt
          exact absurd hlt (by simp [strLt_irrefl])
        simp [hne]
      rw [h0, he]
      simp
    · have hmem2 : nm ∈ rest := by
        rcases (by simpa using hmem : nm = k ∨ nm ∈ rest) with h2 | h2
        · exact absurd h2.symm he
        · exact h2
      rw [List.countP_cons, ih hrest nm hmem2]
      simp [he]

/-- C4 (amended): for every sequence of register calls,
`get_tool_definitions` exports exactly one schema record per registered
name and records for no other names, and the records' `name` fields appear
in strictly ascending lexicographic order (the `std::map` key order) — a
deterministic order, but not the registration order. -/
theorem c4_definitions_sorted (l : List Tool) :
    ∃ names : List String,
      (jElements ((l.foldl ToolRegistry.register_tool
            ToolRegistry.empty).get_tool_definitions)).map
          (fun record => jGet record "name") = names.map JsonVal.str ∧
      List.Pairwise (fun a b => strLt a b = true) names ∧
      (∀ nm : String, nm ∈ names ↔ nm ∈ l.map Tool.name) ∧
      ∀ nm ∈ l.map Tool.name,
        ((jElements ((l.foldl ToolRegistry.register_tool
              ToolRegistry.empty).get_tool_definitions)).filter
            (fun record => jIsStr (jGet record "name") nm)).length = 1 := by
  have hwf := registryWF_foldl l ToolRegistry.empty registryWF_empty
  refine ⟨(l.foldl ToolRegistry.register_tool ToolRegistry.empty).tools.map Prod.fst,
    ?_, List.pairwise_map.mpr hwf.1, ?_, ?_⟩
  · have e1 : (jElements ((l.foldl ToolRegistry.register_tool
          ToolRegistry.empty).get_tool_definitions)).map (fun record => jGet record "name")
        = (l.foldl ToolRegistry.register_tool ToolRegistry.empty).tools.map
            (fun p => jGet p.snd.to_json "name") := by
      show ((l.foldl ToolRegistry.register_tool ToolRegistry.empty).tools.map
          (fun p => p.snd.to_json)).map (fun record => jGet record "name") = _
      rw [List.map_map]
      rfl
    rw [e1,
      List.map_congr_left (fun p hp =>
        show jGet p.snd.to_json "name" = JsonVal.str p.fst by
          rw [hwf.2 p hp]
          rfl),
      List.map_map]
    rfl
  · intro nm
    rw [foldl_register_keys l ToolRegistry.empty nm]
    simp [ToolRegistry.empty]
  · intro nm hnm
    have hmemk : nm ∈ (l.foldl ToolRegistry.register_tool
        ToolRegistry.empty).tools.map Prod.fst := by
      rw [foldl_register_keys l ToolRegistry.empty nm]
      exact Or.inl hnm
    have e2 : ((jElements ((l.foldl ToolRegistry.register_tool
          ToolRegistry.empty).get_tool_definitions)).filter
          (fun record => jIsStr (jGet record "name") nm)).length
        = ((l.foldl ToolRegistry.register_tool ToolRegistry.empty).tools.map
            Prod.fst).countP (fun k => k == nm) := by
      show (((l.foldl ToolRegistry.register_tool ToolRegistry.empty).tools.map
          (fun p => p.snd.to_json)).filter
          (fun record => jIsStr (jGet record "name") nm)).length = _
      rw [← List.countP_eq_length_filter, List.countP_map, List.countP_map]
      refine List.countP_congr ?_
      intro p hp
      have e3 : jIsStr (jGet p.snd.to_json "name") nm = (p.fst == nm) := by
        rw [hwf.2 p hp]
        rfl
      show jIsStr (jGet p.snd.to_json "name") nm = true ↔ (p.fst == nm) = true
      rw [e3]
    rw [e2]
    exact countP_beq_of_sorted_mem _ (List.pairwise_map.mpr hwf.1) nm hmemk

theorem c4_definitions_sorted_witness :
    ∃ names : List String,
      (jElements (([cxToolB, cxToolA].foldl ToolRegistry.register_tool
            ToolRegistry.empty).get_tool_definitions)).map
          (fun record => jGet record "name") = names.map JsonVal.str ∧
      List.Pairwise (fun a b => strLt a b = true) names ∧
      (∀ nm : String, nm ∈ names ↔ nm ∈ [cxToolB, cxToolA].map Tool.name) ∧
      ∀ nm ∈ [cxToolB, cxToolA].map Tool.name,
        ((jElements (([cxToolB, cxToolA].foldl ToolRegistry.register_tool
              ToolRegistry.empty).get_tool_definitions)).filter
            (fun record => jIsStr (jGet record "name") nm)).length = 1 :=
  c4_definitions_sorted [cxToolB, cxToolA]

/-- C5: `execute` is total and returns strings on both failure paths: the
exact not-found string for an absent name, and the caught capability
failure converted to an `Error:`-prefixed string. -/
theorem c5_execute_errors (r : ToolRegistry) (nm : String) (params : JsonVal) :
    (r.tools.find? (fun p => p.fst == nm) = none →
      r.execute nm params = ("Error: Tool \x27" ++ nm ++ "\x27 not found", r)) ∧
    (∀ p, r.tools.find? (fun q => q.fst == nm) = some p →
      ∀ m, p.snd.executor params = .error m →
      r.execute nm params = ("Error: " ++ m, r)) := by
  constructor
  · intro h
    unfold ToolRegistry.execute
    rw [h]
  · intro p hp m hm
    unfold ToolRegistry.execute
    rw [hp]
    dsimp only
    rw [hm]

/-- failTool is a concrete capability that always fails. -/
def failTool : Tool :=
  { name := "boom", description := "always fails", input_schema := .obj [],
    executor := fun _ => .error "boom msg" }

def failReg : ToolRegistry := ⟨[("boom", failTool)]⟩

theorem c5_execute_errors_witness :
    ToolRegistry.empty.execute "nonexistent" (.obj [])
      = ("Error: Tool \x27nonexistent\x27 not found", ToolRegistry.empty) ∧
    failReg.execute "boom" (.obj []) = ("Error: boom msg", failReg) :=
  ⟨(c5_execute_errors ToolRegistry.empty "nonexistent" (.obj [])).1 rfl,
   (c5_execute_errors failReg "boom" (.obj [])).2 ("boom", failTool) rfl "boom msg" rfl⟩

/-- C8: registering over an existing name replaces the entry: the lookup
yields the latest tool, the export contains the latest record, exported
names stay duplicate-free, and the registry size does not grow. -/
theorem c8_register_replaces (r : ToolRegistry) (t : Tool)
    (hwf : RegistryWF r) (hmem : t.name ∈ r.tools.map Prod.fst) :
    (r.register_tool t).tools.find? (fun p => p.fst == t.name) = some (t.name, t) ∧
    (r.register_tool t).get_tool_definitions
      = .arr ((r.register_tool t).tools.map (fun p => p.snd.to_json)) ∧
    t.to_json ∈ (r.register_tool t).tools.map (fun p => p.snd.to_json) ∧
    ((r.register_tool t).tools.map (fun p => jGet p.snd.to_json "name")).Nodup ∧
    (r.register_tool t).tools.length = r.tools.length := by
  refine ⟨mapInsert_find? hwf.1, rfl, ?_, ?_, mapInsert_length_of_mem hwf.1 hmem⟩
  · exact List.mem_map.mpr ⟨(t.name, t), mapInsert_self_mem, rfl⟩
  · have hwf2 : RegistryWF (r.register_tool t) := registryWF_register hwf
    have hname : ∀ p ∈ (r.register_tool t).tools,
        jGet p.snd.to_json "name" = .str p.fst := by
      intro p hp
      have : p.fst = p.snd.name := hwf2.2 p hp
      rw [this]
      rfl
    have : ((r.register_tool t).tools.map (fun p => jGet p.snd.to_json "name"))
        = ((r.register_tool t).tools.map (fun p => JsonVal.str p.fst)) :=
      List.map_congr_left hname
    rw [this]
    have hkeys := regSorted_keys_nodup hwf2.1
    have : ((r.register_tool t).tools.map (fun p => JsonVal.str p.fst))
        = ((r.register_tool t).tools.map Prod.fst).map JsonVal.str := by
      rw [List.map_map]
      rfl
    rw [this]
    exact hkeys.map (fun a b h => by injection h)

def cxReg : ToolRegistry := ⟨[("a", cxToolA)]⟩

theorem c8_register_replaces_witness :
    (cxReg.register_tool cxToolA2).tools.find? (fun p => p.fst == "a")
      = some ("a", cxToolA2) ∧
    (cxReg.register_tool cxToolA2).get_tool_definitions
      = .arr ((cxReg.register_tool cxToolA2).tools.map (fun p => p.snd.to_json)) ∧
    cxToolA2.to_json ∈ (cxReg.register_tool cxToolA2).tools.map (fun p => p.snd.to_json) ∧
    ((cxReg.register_tool cxToolA2).tools.map (fun p => jGet p.snd.to_json "name")).Nodup ∧
    (cxReg.register_tool cxToolA2).tools.length = cxReg.tools.length :=
  c8_register_replaces cxReg cxToolA2
    ⟨by simp [RegSorted, cxReg], by simp [cxReg, cxToolA]⟩
    (by simp [cxReg, cxToolA2])

/-- C9: reset is idempotent, empties the history, and preserves the
registry, the credential, the model identifier (and the bound). -/
theorem c9_reset_idempotent (st : Agent) :
    st.reset.reset = st.reset ∧
    st.reset.conversation_history = [] ∧
    st.reset.tool_registry = st.tool_registry ∧
    st.reset.api_key = st.api_key ∧
    st.reset.model = st.model ∧
    st.reset.max_iterations = st.max_iterations :=
  ⟨rfl, rfl, rfl, rfl, rfl, rfl⟩

/-- C10: `execute` threads the registry through unchanged on every path —
looking up an absent name in particular inserts nothing.  The query
methods `get_tool_definitions` and `has_tools` are `const` in the source
and are embedded as pure functions of the registry, so they cannot mutate
it. -/
theorem c10_execute_preserves_registry (r : ToolRegistry) (nm : String)
    (params : JsonVal) :
    (r.execute nm params).snd = r := by
  unfold ToolRegistry.execute
  cases h : r.tools.find? (fun p => p.fst == nm) <;> simp

/-- execute_snd: `execute` returns the registry unchanged (it only reads
the map). -/
theorem execute_snd (r : ToolRegistry) (nm : String) (params : JsonVal) :
    (r.execute nm params).snd = r := by
  unfold ToolRegistry.execute
  cases h : r.tools.find? (fun p => p.fst == nm) <;> simp

theorem jGet_type_of_tu {b : JsonVal} (h : isToolUseBlock b = true) :
    jGet b "type" = .str "tool_use" := by
  unfold isToolUseBlock jIsStr at h
  revert h
  cases jGet b "type" <;> intro h <;> simp_all

theorem asStr_ok {j : JsonVal} {s : String} (h : asStr j = .ok s) : j = .str s := by
  cases j <;> simp [asStr] at h ⊢
  exact h

theorem process_blocks_skip (st : Agent) (it : Int) (x : JsonVal)
    (rest acc : List JsonVal) (hu : Bool) (hx : isToolUseBlock x = false) :
    process_blocks st it (x :: rest) acc hu
      = process_blocks st it rest (acc ++ [x]) hu := by
  have hx2 : ¬ (jIsStr (jGet x "type") "tool_use" = true) := by
    unfold isToolUseBlock at hx
    simp [hx]
  simp only [process_blocks]
  by_cases ht : jIsStr (jGet x "type") "text" = true
  · rw [if_pos ht]
  · rw [if_neg ht, if_neg hx2]

theorem process_blocks_no_tu (st : Agent) (it : Int) :
    ∀ blocks acc : List JsonVal, (∀ x ∈ blocks, isToolUseBlock x = false) →
    process_blocks st it blocks acc false
      = .ok (.done true (pushMsg st (assistantMsg (acc ++ blocks)))) := by
  intro blocks
  induction blocks with
  | nil =>
    intro acc _
    simp [process_blocks]
  | cons x rest ih =>
    intro acc h
    rw [process_blocks_skip st it x rest acc false (h x (by simp))]
    rw [ih (acc ++ [x]) (fun y hy => h y (by simp [hy]))]
    simp

/-- toolStepState names the state built by the `tool_use` branch of
`process_blocks`: registry threaded through `execute`, ghost dispatch log
extended, and the assistant / tool-result message pair appended. -/
def toolStepState (st : Agent) (nm : String) (inp : JsonVal)
    (content : List JsonVal) (idv : String) : Agent :=
  let er := st.tool_registry.execute nm inp
  pushMsg (pushMsg { st with tool_registry := er.snd,
                             executed := st.executed ++ [(nm, inp)] }
      (assistantMsg content))
    (toolResultMsg idv er.fst)

theorem process_blocks_tu (st : Agent) (it : Int) :
    ∀ (pre : List JsonVal) (b : JsonVal) (post acc : List JsonVal) (nm idv : String),
    (∀ x ∈ pre, isToolUseBlock x = false) →
    isToolUseBlock b = true →
    jGet b "name" = .str nm →
    jGet b "id" = .str idv →
    process_blocks st it (pre ++ b :: post) acc false
      = (if it < st.max_iterations then
           Except.ok (.recurse (toolStepState st nm (jGet b "input") (acc ++ pre ++ [b]) idv))
         else
           Except.ok (.done false (toolStepState st nm (jGet b "input") (acc ++ pre ++ [b]) idv))) := by
  intro pre
  induction pre with
  | nil =>
    intro b post acc nm idv _ htu hnm hid
    have ht : ¬ (jIsStr (jGet b "type") "text" = true) := by
      rw [jGet_type_of_tu htu]
      decide
    have htu2 : jIsStr (jGet b "type") "tool_use" = true := htu
    simp only [List.nil_append, process_blocks]
    rw [if_neg ht, if_pos htu2, hnm, hid]
    simp [toolStepState, asStr]
  | cons x pre2 ih =>
    intro b post acc nm idv hpre htu hnm hid
    have hx : isToolUseBlock x = false := hpre x (by simp)
    rw [List.cons_append,
        process_blocks_skip st it x (pre2 ++ b :: post) acc false hx,
        ih b post (acc ++ [x]) nm idv (fun y hy => hpre y (by simp [hy])) htu hnm hid]
    simp [List.append_assoc]

theorem pairedMsg_toolStep (acc : List JsonVal) (x : JsonVal) (idv res : String)
    (hacc : ∀ y ∈ acc, isToolUseBlock y = false)
    (hid : jGet x "id" = .str idv) :
    PairedMsg (assistantMsg (acc ++ [x])) (toolResultMsg idv res) := by
  constructor
  · exact role_toolResultMsg idv res
  · intro b hb htu
    have hbx : b = x := by
      rcases (by simpa [msgBlocks_assistantMsg] using hb : b ∈ acc ∨ b = x) with h | h
      · exact absurd (hacc b h) (by simp [htu])
      · exact h
    refine ⟨.obj [("type", .str "tool_result"), ("tool_use_id", .str idv),
                  ("content", .str res)], ?_, ?_⟩
    · rfl
    · rw [hbx, hid]
      rfl

/-- stateOf projects the agent state out of a step outcome. -/
def stateOf : StepOutcome → Agent
  | .done _ s => s
  | .recurse s => s

theorem process_blocks_ext (st : Agent) (it : Int) :
    ∀ (blocks acc : List JsonVal), (∀ x ∈ acc, isToolUseBlock x = false) →
    ∀ out, process_blocks st it blocks acc false = .ok out →
    ∃ ext, HistOkI ext ∧
      (stateOf out).conversation_history = st.conversation_history ++ ext := by
  intro blocks
  induction blocks with
  | nil =>
    intro acc hacc out hout
    have hout2 : StepOutcome.done true (pushMsg st (assistantMsg acc)) = out := by
      simpa [process_blocks] using hout
    subst hout2
    refine ⟨[assistantMsg acc], ?_, ?_⟩
    · exact HistOkI.safe _ _ (safeMsg_assistantMsg_of_no_tu acc hacc) HistOkI.nil
    · simp [stateOf, pushMsg]
  | cons x rest ih =>
    intro acc hacc out hout
    by_cases hx : isToolUseBlock x = true
    · have ht : ¬ (jIsStr (jGet x "type") "text" = true) := by
        rw [jGet_type_of_tu hx]
        decide
      have hx3 : jIsStr (jGet x "type") "tool_use" = true := hx
      cases han : asStr (jGet x "name") with
      | error e =>
        have herr : process_blocks st it (x :: rest) acc false = .error e := by
          simp only [process_blocks]
          rw [if_neg ht, if_pos hx3, han]
        rw [herr] at hout
        simp at hout
      | ok nm =>
        cases hai : asStr (jGet x "id") with
        | error e =>
          have herr : process_blocks st it (x :: rest) acc false = .error e := by
            simp only [process_blocks]
            rw [if_neg ht, if_pos hx3, han, hai]
          rw [herr] at hout
          simp at hout
        | ok idv =>
          have heq := process_blocks_tu st it [] x rest acc nm idv
            (by simp) hx (asStr_ok han) (asStr_ok hai)
          simp only [List.nil_append, List.append_nil] at heq
          rw [heq] at hout
          refine ⟨[assistantMsg (acc ++ [x]),
                   toolResultMsg idv (st.tool_registry.execute nm (jGet x "input")).fst],
                  ?_, ?_⟩
          · exact HistOkI.pair _ _ [] (role_assistantMsg _)
              (pairedMsg_toolStep acc x idv _ hacc (asStr_ok hai)) HistOkI.nil
          · by_cases hlt : it < st.max_iterations
            · rw [if_pos hlt] at hout
              have hout2 : StepOutcome.recurse
                  (toolStepState st nm (jGet x "input") (acc ++ [x]) idv) = out := by
                simpa using hout
              subst hout2
              simp [stateOf, toolStepState, pushMsg]
            · rw [if_neg hlt] at hout
              have hout2 : StepOutcome.done false
                  (toolStepState st nm (jGet x "input") (acc ++ [x]) idv) = out := by
                simpa using hout
              subst hout2
              simp [stateOf, toolStepState, pushMsg]
    · have hx2 : isToolUseBlock x = false := by
        cases h3 : isToolUseBlock x
        · rfl
        · exact absurd h3 hx
      rw [process_blocks_skip st it x rest acc false hx2] at hout
      refine ih (acc ++ [x]) ?_ out hout
      intro y hy
      rcases List.mem_append.mp hy with h | h
      · exact hacc y h
      · rw [List.mem_singleton.mp h]
        exact hx2

theorem process_response_ext (st : Agent) (response : JsonVal) (it : Int)
    (out : StepOutcome) (h : process_response st response it = .ok out) :
    ∃ ext, HistOkI ext ∧
      (stateOf out).conversation_history = st.conversation_history ++ ext := by
  unfold process_response at h
  by_cases hc : (jsonEmpty response || !jsonContains response "content") = true
  · rw [if_pos hc] at h
    have h2 : StepOutcome.done false st = out := by simpa using h
    subst h2
    exact ⟨[], HistOkI.nil, by simp [stateOf]⟩
  · rw [if_neg hc] at h
    exact process_blocks_ext st it _ [] (by simp) out h

theorem run_iteration_ext : ∀ (fuel : Nat) (st : Agent) (oracle : Int → BackendResult)
    (it : Int) (b : Bool) (st2 : Agent),
    run_iteration fuel st oracle it = .ok (b, st2) →
    ∃ ext, HistOkI ext ∧
      st2.conversation_history = st.conversation_history ++ ext := by
  intro fuel
  induction fuel with
  | zero =>
    intro st oracle it b st2 h
    simp [run_iteration] at h
  | succ n ih =>
    intro st oracle it b st2 h
    simp only [run_iteration] at h
    cases hor : oracle it with
    | badStatus =>
      rw [hor] at h
      simp only [call_api] at h
      rw [if_pos (by rfl)] at h
      have h2 : false = b ∧ ({ st with api_calls := st.api_calls + 1 } : Agent) = st2 := by
        simpa using h
      obtain ⟨hb, hst⟩ := h2
      subst hst
      exact ⟨[], HistOkI.nil, by simp⟩
    | unparseable =>
      rw [hor] at h
      simp [call_api] at h
    | parsed j =>
      rw [hor] at h
      simp only [call_api] at h
      by_cases hje : jsonEmpty j = true
      · rw [if_pos hje] at h
        have h2 : false = b ∧ ({ st with api_calls := st.api_calls + 1 } : Agent) = st2 := by
          simpa using h
        obtain ⟨hb, hst⟩ := h2
        subst hst
        exact ⟨[], HistOkI.nil, by simp⟩
      · rw [if_neg hje] at h
        cases hpr : process_response { st with api_calls := st.api_calls + 1 } j it with
        | error e =>
          rw [hpr] at h
          simp at h
        | ok so =>
          rw [hpr] at h
          cases so with
          | done b2 s2 =>
            have h2 : b2 = b ∧ s2 = st2 := by simpa using h
            obtain ⟨hb2, hs2⟩ := h2
            subst hs2
            obtain ⟨ext, hok, hh⟩ := process_response_ext _ j it _ hpr
            exact ⟨ext, hok, by simpa [stateOf] using hh⟩
          | recurse s2 =>
            obtain ⟨ext2, hok2, hh2⟩ := ih s2 oracle (it + 1) b st2 h
            obtain ⟨ext1, hok1, hh1⟩ := process_response_ext _ j it _ hpr
            refine ⟨ext1 ++ ext2, histOkI_append hok1 hok2, ?_⟩
            rw [hh2]
            simp only [stateOf] at hh1
            rw [hh1]
            simp

theorem run_ext (st : Agent) (input : String) (oracle : Int → BackendResult)
    (b : Bool) (st2 : Agent) (h : Agent.run st input oracle = .ok (b, st2)) :
    ∃ ext, HistOkI ext ∧
      st2.conversation_history = st.conversation_history ++ ext := by
  unfold Agent.run at h
  obtain ⟨ext, hok, hh⟩ := run_iteration_ext _ _ oracle 1 b st2 h
  refine ⟨userTextMsg input :: ext, ?_, ?_⟩
  · exact HistOkI.safe _ _ (safeMsg_userTextMsg input) hok
  · rw [hh]
    simp [pushMsg]

theorem reachable_histOkI (st : Agent) (h : Reachable st) :
    HistOkI st.conversation_history := by
  induction h with
  | init key model_name max_iter => exact HistOkI.nil
  | register st t _ ih => exact ih
  | step st input oracle b st2 _ hrun ih =>
    obtain ⟨ext, hok, hh⟩ := run_ext st input oracle b st2 hrun
    rw [hh]
    exact histOkI_append ih hok
  | reset st _ _ => exact HistOkI.nil

/-- C3: after any sequence of runs (and registrations and resets), every
assistant message of Conversation History that contains a `ToolUse` block
is immediately followed by a user message containing exactly one
`ToolResult` block whose `tool_use_id` equals that `ToolUse` block's id. -/
theorem c3_tool_pair_invariant (st : Agent) (h : Reachable st) :
    HistOk st.conversation_history :=
  histOkI_histOk (reachable_histOkI st h)

/-- w3Oracle answers the first call with a `tool_use` response and every
later call with a plain text response. -/
def w3Oracle : Int → BackendResult :=
  fun i =>
    if i = 1 then
      .parsed (.obj [("content", .arr [ .obj [("type", .str "tool_use"),
                                              ("id", .str "tu1"),
                                              ("name", .str "echo"),
                                              ("input", .obj [])] ])])
    else
      .parsed (.obj [("content", .arr [ .obj [("type", .str "text"),
                                              ("text", .str "done")] ])])

def w3Start : Agent := Agent.init "key" default_model 10

/-- runStateOr extracts the post-run session from a run result, with a
fallback for the escaped-exception case. -/
def runStateOr (r : Except String (Bool × Agent)) (d : Agent) : Agent :=
  match r with
  | .ok p => p.snd
  | .error _ => d

def w3Final : Agent := runStateOr (Agent.run w3Start "hi" w3Oracle) w3Start

theorem c3_tool_pair_invariant_witness : HistOk w3Final.conversation_history := by
  have hrun : Agent.run w3Start "hi" w3Oracle = .ok (true, w3Final) := rfl
  exact c3_tool_pair_invariant w3Final
    (Reachable.step w3Start "hi" w3Oracle true w3Final
      (Reachable.init "key" default_model 10) hrun)

theorem jsonEmpty_false_of_contains {j : JsonVal} {k : String}
    (h : jsonContains j k = true) : jsonEmpty j = false := by
  cases j with
  | obj fields =>
    cases fields with
    | nil => simp [jsonContains] at h
    | cons f rest => rfl
  | null => simp [jsonContains] at h
  | bool b => simp [jsonContains] at h
  | num n => simp [jsonContains] at h
  | str s => simp [jsonContains] at h
  | arr xs => simp [jsonContains] at h

/-- C1 (amended): when a backend response contains several `ToolUse`
blocks, only the first one is dispatched (the ghost log gains exactly that
one entry), and the assistant message appended to Conversation History
retains exactly the blocks up to and including that first `ToolUse`; the
blocks after it — the later `ToolUse` blocks included — are discarded,
neither invoked nor retained, because the C++ loop returns from inside the
`tool_use` branch. -/
theorem c1_first_tool_use_only (st : Agent) (it : Int) (response : JsonVal)
    (pre post : List JsonVal) (b : JsonVal) (nm idv : String)
    (hcont : jsonContains response "content" = true)
    (hbs : jGet response "content" = .arr (pre ++ b :: post))
    (hpre : ∀ x ∈ pre, isToolUseBlock x = false)
    (htu : isToolUseBlock b = true)
    (hnm : jGet b "name" = .str nm)
    (hid : jGet b "id" = .str idv)
    (_hmulti : ∃ x ∈ post, isToolUseBlock x = true) :
    ∃ st2, (process_response st response it = .ok (.recurse st2) ∨
            process_response st response it = .ok (.done false st2)) ∧
      st2.executed = st.executed ++ [(nm, jGet b "input")] ∧
      st2.conversation_history = st.conversation_history ++
        [assistantMsg (pre ++ [b]),
         toolResultMsg idv (st.tool_registry.execute nm (jGet b "input")).fst] := by
  have hje : jsonEmpty response = false := jsonEmpty_false_of_contains hcont
  have hcond : ¬ ((jsonEmpty response || !jsonContains response "content") = true) := by
    simp [hje, hcont]
  have heval : process_response st response it
      = (if it < st.max_iterations then
           Except.ok (.recurse (toolStepState st nm (jGet b "input") (pre ++ [b]) idv))
         else
           Except.ok (.done false (toolStepState st nm (jGet b "input") (pre ++ [b]) idv))) := by
    unfold process_response
    rw [if_neg hcond, hbs]
    have h2 := process_blocks_tu st it pre b post [] nm idv hpre htu hnm hid
    simpa [jElements] using h2
  refine ⟨toolStepState st nm (jGet b "input") (pre ++ [b]) idv, ?_, ?_, ?_⟩
  · by_cases hlt : it < st.max_iterations
    · left
      rw [heval, if_pos hlt]
    · right
      rw [heval, if_neg hlt]
  · simp [toolStepState, pushMsg]
  · simp [toolStepState, pushMsg]

/-- cxTuBlock and cxTuBlock2 are two distinct well-formed tool_use blocks
and cxResp a backend response carrying both. -/
def cxTuBlock : JsonVal :=
  .obj [("type", .str "tool_use"), ("id", .str "id1"),
        ("name", .str "t"), ("input", .obj [])]

def cxTuBlock2 : JsonVal :=
  .obj [("type", .str "tool_use"), ("id", .str "id2"),
        ("name", .str "t2"), ("input", .obj [])]

def cxAgent : Agent := Agent.init "key" default_model 10

def cxResp : JsonVal := .obj [("content", .arr [cxTuBlock, cxTuBlock2])]

/-- cxAfter is the state after interpreting cxResp: only the first
tool_use was dispatched and retained. -/
def cxAfter : Agent :=
  { api_key := "key"
    model := default_model
    tool_registry := ToolRegistry.empty
    conversation_history :=
      [assistantMsg [cxTuBlock],
       toolResultMsg "id1" "Error: Tool \x27t\x27 not found"]
    max_iterations := 10
    api_calls := 0
    executed := [("t", .obj [])] }

/-- C1 is refuted as stated: on a response whose content is two `ToolUse`
blocks, the loop invokes only the first, and the assistant message
appended to Conversation History contains only the first block — the
second `ToolUse` block is not retained as inert content; it is dropped
entirely. -/
theorem c1_counterexample :
    process_response cxAgent cxResp 1 = .ok (.recurse cxAfter) ∧
    MsgBlocks (assistantMsg [cxTuBlock]) = [cxTuBlock] ∧
    cxTuBlock2 ∉ MsgBlocks (assistantMsg [cxTuBlock]) ∧
    cxAfter.executed = [("t", .obj [])] := by
  refine ⟨rfl, rfl, ?_, rfl⟩
  rw [msgBlocks_assistantMsg]
  simp [cxTuBlock, cxTuBlock2]

theorem c1_first_tool_use_only_witness :
    ∃ st2, (process_response cxAgent cxResp 1 = .ok (.recurse st2) ∨
            process_response cxAgent cxResp 1 = .ok (.done false st2)) ∧
      st2.executed = cxAgent.executed ++ [("t", jGet cxTuBlock "input")] ∧
      st2.conversation_history = cxAgent.conversation_history ++
        [assistantMsg [cxTuBlock],
         toolResultMsg "id1"
           (cxAgent.tool_registry.execute "t" (jGet cxTuBlock "input")).fst] :=
  c1_first_tool_use_only cxAgent 1 cxResp [] [cxTuBlock2] cxTuBlock "t" "id1"
    rfl rfl (by simp) rfl rfl rfl ⟨cxTuBlock2, by simp, rfl⟩

theorem process_response_tu (st : Agent) (it : Int) (response : JsonVal)
    (pre post : List JsonVal) (b : JsonVal) (nm idv : String)
    (hcont : jsonContains response "content" = true)
    (hbs : jGet response "content" = .arr (pre ++ b :: post))
    (hpre : ∀ x ∈ pre, isToolUseBlock x = false)
    (htu : isToolUseBlock b = true)
    (hnm : jGet b "name" = .str nm)
    (hid : jGet b "id" = .str idv) :
    process_response st response it
      = (if it < st.max_iterations then
           Except.ok (.recurse (toolStepState st nm (jGet b "input") (pre ++ [b]) idv))
         else
           Except.ok (.done false (toolStepState st nm (jGet b "input") (pre ++ [b]) idv))) := by
  have hje : jsonEmpty response = false := jsonEmpty_false_of_contains hcont
  have hcond : ¬ ((jsonEmpty response || !jsonContains response "content") = true) := by
    simp [hje, hcont]
  unfold process_response
  rw [if_neg hcond, hbs]
  have h2 := process_blocks_tu st it pre b post [] nm idv hpre htu hnm hid
  simpa [jElements] using h2

/-- GoodToolUseResponse: the round-trip produced a parsed body carrying a
content sequence that contains a well-formed `ToolUse` block. -/
def GoodToolUseResponse (r : BackendResult) : Prop :=
  ∃ j pre b post, r = .parsed j ∧
    jsonContains j "content" = true ∧
    jGet j "content" = .arr (pre ++ b :: post) ∧
    (∀ x ∈ pre, isToolUseBlock x = false) ∧
    isToolUseBlock b = true ∧
    (∃ nm, jGet b "name" = .str nm) ∧
    (∃ idv, jGet b "id" = .str idv)

/-- ToolPairs ext n: ext consists of exactly n contiguous
assistant-with-ToolUse / user-with-single-ToolResult message pairs. -/
inductive ToolPairs : List JsonVal → Nat → Prop
  | nil : ToolPairs [] 0
  | cons (a u : JsonVal) (rest : List JsonVal) (n : Nat) :
      jGet a "role" = .str "assistant" →
      (∃ bb ∈ MsgBlocks a, isToolUseBlock bb = true) →
      jGet u "role" = .str "user" →
      (∃ rb, MsgBlocks u = [rb] ∧ isToolResultBlock rb = true) →
      ToolPairs rest n → ToolPairs (a :: u :: rest) (n + 1)

theorem toolStepState_history (st : Agent) (nm : String) (inp : JsonVal)
    (content : List JsonVal) (idv : String) :
    (toolStepState st nm inp content idv).conversation_history
      = st.conversation_history ++
        [assistantMsg content,
         toolResultMsg idv (st.tool_registry.execute nm inp).fst] := by
  simp [toolStepState, pushMsg]

theorem run_iteration_all_tu : ∀ (fuel : Nat) (st : Agent)
    (oracle : Int → BackendResult) (it : Int),
    (st.max_iterations - it).toNat < fuel →
    1 ≤ it → it ≤ st.max_iterations →
    (∀ k : Int, it ≤ k → k ≤ st.max_iterations → GoodToolUseResponse (oracle k)) →
    ∃ st2 ext,
      run_iteration fuel st oracle it = .ok (false, st2) ∧
      st2.api_calls = st.api_calls + ((st.max_iterations - it).toNat + 1) ∧
      st2.conversation_history = st.conversation_history ++ ext ∧
      ToolPairs ext ((st.max_iterations - it).toNat + 1) ∧
      st2.max_iterations = st.max_iterations := by
  intro fuel
  induction fuel with
  | zero =>
    intro st oracle it hfuel h1 hle hor
    omega
  | succ n ih =>
    intro st oracle it hfuel h1 hle hor
    obtain ⟨j, pre, b, post, hj, hcont, hbs, hpre, htu, ⟨nm, hnm⟩, ⟨idv, hid⟩⟩ :=
      hor it (le_refl it) hle
    have hje : jsonEmpty j = false := jsonEmpty_false_of_contains hcont
    have hpr := process_response_tu { st with api_calls := st.api_calls + 1 } it j
      pre post b nm idv hcont hbs hpre htu hnm hid
    by_cases hlt : it < st.max_iterations
    · have hpr2 : process_response { st with api_calls := st.api_calls + 1 } j it
          = .ok (.recurse (toolStepState { st with api_calls := st.api_calls + 1 } nm
              (jGet b "input") (pre ++ [b]) idv)) := by
        rw [hpr]
        rw [if_pos (show it < ({ st with api_calls := st.api_calls + 1 } : Agent).max_iterations
          from hlt)]
      have hstep : run_iteration (n + 1) st oracle it
          = run_iteration n (toolStepState { st with api_calls := st.api_calls + 1 } nm
              (jGet b "input") (pre ++ [b]) idv) oracle (it + 1) := by
        simp only [run_iteration]
        rw [hj]
        simp only [call_api]
        rw [if_neg (by simp [hje]), hpr2]
      have hmaxS : (toolStepState { st with api_calls := st.api_calls + 1 } nm
          (jGet b "input") (pre ++ [b]) idv).max_iterations = st.max_iterations := rfl
      obtain ⟨st2, ext, hrun2, hcalls2, hhist2, hpairs2, hmax2⟩ :=
        ih (toolStepState { st with api_calls := st.api_calls + 1 } nm
              (jGet b "input") (pre ++ [b]) idv) oracle (it + 1)
          (by rw [hmaxS]; omega)
          (by omega)
          (by rw [hmaxS]; omega)
          (by
            intro k hk1 hk2
            rw [hmaxS] at hk2
            exact hor k (by omega) hk2)
      refine ⟨st2,
        assistantMsg (pre ++ [b]) ::
          toolResultMsg idv (st.tool_registry.execute nm (jGet b "input")).fst :: ext,
        ?_, ?_, ?_, ?_, ?_⟩
      · rw [hstep]
        exact hrun2
      · rw [hcalls2, hmaxS]
        have e1 : (toolStepState { st with api_calls := st.api_calls + 1 } nm
            (jGet b "input") (pre ++ [b]) idv).api_calls = st.api_calls + 1 := rfl
        rw [e1]
        omega
      · rw [hhist2, toolStepState_history]
        simp
      · have hcnt : (st.max_iterations - it).toNat + 1
            = (((st.max_iterations - (it + 1)).toNat + 1)) + 1 := by omega
        rw [hcnt]
        refine ToolPairs.cons _ _ _ _ (role_assistantMsg _) ?_ (role_toolResultMsg _ _) ?_ ?_
        · exact ⟨b, by simp [msgBlocks_assistantMsg], htu⟩
        · exact ⟨.obj [("type", .str "tool_result"), ("tool_use_id", .str idv),
                       ("content", .str (st.tool_registry.execute nm (jGet b "input")).fst)],
                 rfl, rfl⟩
        · rw [hmaxS] at hpairs2
          exact hpairs2
      · rw [hmax2, hmaxS]
    · have hpr2 : process_response { st with api_calls := st.api_calls + 1 } j it
          = .ok (.done false (toolStepState { st with api_calls := st.api_calls + 1 } nm
              (jGet b "input") (pre ++ [b]) idv)) := by
        rw [hpr]
        rw [if_neg (show ¬ it < ({ st with api_calls := st.api_calls + 1 } : Agent).max_iterations
          from hlt)]
      have hstep : run_iteration (n + 1) st oracle it
          = .ok (false, toolStepState { st with api_calls := st.api_calls + 1 } nm
              (jGet b "input") (pre ++ [b]) idv) := by
        simp only [run_iteration]
        rw [hj]
        simp only [call_api]
        rw [if_neg (by simp [hje]), hpr2]
      have hcnt : (st.max_iterations - it).toNat = 0 := by omega
      refine ⟨toolStepState { st with api_calls := st.api_calls + 1 } nm
          (jGet b "input") (pre ++ [b]) idv,
        [assistantMsg (pre ++ [b]),
         toolResultMsg idv (st.tool_registry.execute nm (jGet b "input")).fst],
        hstep, ?_, ?_, ?_, rfl⟩
      · have e1 : (toolStepState { st with api_calls := st.api_calls + 1 } nm
            (jGet b "input") (pre ++ [b]) idv).api_calls = st.api_calls + 1 := rfl
        rw [e1, hcnt]
      · rw [toolStepState_history]
      · rw [hcnt]
        refine ToolPairs.cons _ _ _ _ (role_assistantMsg _) ?_ (role_toolResultMsg _ _) ?_
          ToolPairs.nil
        · exact ⟨b, by simp [msgBlocks_assistantMsg], htu⟩
        · exact ⟨.obj [("type", .str "tool_result"), ("tool_use_id", .str idv),
                       ("content", .str (st.tool_registry.execute nm (jGet b "input")).fst)],
                 rfl, rfl⟩

/-- C2: when every backend response within the bound contains a `ToolUse`
block and the bound is positive, the run makes exactly `max_iterations`
backend calls (never more — the ghost call counter advances by exactly the
bound), ends with the bound-reached outcome `false`, and Conversation
History gains the user message followed by exactly `max_iterations`
contiguous assistant-with-ToolUse / user-with-ToolResult pairs. -/
theorem c2_bound_reached (st : Agent) (input : String)
    (oracle : Int → BackendResult)
    (hpos : 1 ≤ st.max_iterations)
    (hor : ∀ k : Int, 1 ≤ k → k ≤ st.max_iterations → GoodToolUseResponse (oracle k)) :
    ∃ st2 ext,
      Agent.run st input oracle = .ok (false, st2) ∧
      st2.api_calls = st.api_calls + st.max_iterations.toNat ∧
      st2.conversation_history
        = st.conversation_history ++ userTextMsg input :: ext ∧
      ToolPairs ext st.max_iterations.toNat := by
  obtain ⟨st2, ext, hrun, hcalls, hhist, hpairs, hmax⟩ :=
    run_iteration_all_tu (st.max_iterations.toNat + 1)
      (pushMsg st (userTextMsg input)) oracle 1
      (show (st.max_iterations - 1).toNat < st.max_iterations.toNat + 1 by omega)
      (le_refl 1) hpos hor
  refine ⟨st2, ext, hrun, ?_, ?_, ?_⟩
  · have h2 : st2.api_calls = st.api_calls + ((st.max_iterations - 1).toNat + 1) := hcalls
    omega
  · have h3 : st2.conversation_history
        = (st.conversation_history ++ [userTextMsg input]) ++ ext := hhist
    rw [h3]
    simp
  · have h4 : ToolPairs ext ((st.max_iterations - 1).toNat + 1) := hpairs
    have h5 : (st.max_iterations - 1).toNat + 1 = st.max_iterations.toNat := by omega
    rw [← h5]
    exact h4

def c2WStart : Agent := Agent.init "k" default_model 2

def c2WOracle : Int → BackendResult :=
  fun _ => .parsed (.obj [("content", .arr [cxTuBlock])])

theorem c2_bound_reached_witness :
    ∃ st2 ext,
      Agent.run c2WStart "go" c2WOracle = .ok (false, st2) ∧
      st2.api_calls = c2WStart.api_calls + c2WStart.max_iterations.toNat ∧
      st2.conversation_history
        = c2WStart.conversation_history ++ userTextMsg "go" :: ext ∧
      ToolPairs ext c2WStart.max_iterations.toNat :=
  c2_bound_reached c2WStart "go" c2WOracle (by decide)
    (fun k _ _ =>
      ⟨.obj [("content", .arr [cxTuBlock])], [], cxTuBlock, [], rfl, rfl, rfl,
       by simp, rfl, ⟨"t", rfl⟩, ⟨"id1", rfl⟩⟩)

theorem run_iteration_text_only (st : Agent) (oracle : Int → BackendResult)
    (n : Nat) (it : Int) (blocks : List JsonVal)
    (hor : oracle it = .parsed (.obj [("content", .arr blocks)]))
    (hnt : ∀ x ∈ blocks, isToolUseBlock x = false) :
    run_iteration (n + 1) st oracle it
      = .ok (true, pushMsg { st with api_calls := st.api_calls + 1 }
          (assistantMsg blocks)) := by
  have hpr : process_response { st with api_calls := st.api_calls + 1 }
      (.obj [("content", .arr blocks)]) it
      = .ok (.done true (pushMsg { st with api_calls := st.api_calls + 1 }
          (assistantMsg blocks))) := by
    unfold process_response
    rw [if_neg (by simp [jsonEmpty, jsonContains])]
    have e1 : jElements (jGet (JsonVal.obj [("content", .arr blocks)]) "content")
        = blocks := rfl
    rw [e1, process_blocks_no_tu _ it blocks [] hnt]
    rfl
  simp only [run_iteration]
  rw [hor]
  simp only [call_api]
  rw [if_neg (by simp [jsonEmpty]), hpr]

theorem run_text_only (st : Agent) (input : String) (oracle : Int → BackendResult)
    (blocks : List JsonVal)
    (hor : oracle 1 = .parsed (.obj [("content", .arr blocks)]))
    (hnt : ∀ x ∈ blocks, isToolUseBlock x = false) :
    Agent.run st input oracle
      = .ok (true, pushMsg { pushMsg st (userTextMsg input) with
          api_calls := st.api_calls + 1 } (assistantMsg blocks)) :=
  run_iteration_text_only (pushMsg st (userTextMsg input)) oracle
    st.max_iterations.toNat 1 blocks hor hnt

theorem run_iteration_failed_first (st : Agent) (oracle : Int → BackendResult)
    (n : Nat) (it : Int)
    (h : oracle it = .badStatus ∨
         ∃ j, oracle it = .parsed j ∧
              (jsonEmpty j = true ∨ jsonContains j "content" = false)) :
    run_iteration (n + 1) st oracle it
      = .ok (false, { st with api_calls := st.api_calls + 1 }) := by
  rcases h with h | ⟨j, hj, hcase⟩
  · simp only [run_iteration]
    rw [h]
    simp only [call_api]
    rw [if_pos (by rfl)]
  · simp only [run_iteration]
    rw [hj]
    simp only [call_api]
    by_cases hje : jsonEmpty j = true
    · rw [if_pos hje]
    · rw [if_neg hje]
      have hcont : jsonContains j "content" = false := by
        rcases hcase with h2 | h2
        · exact absurd h2 hje
        · exact h2
      have hpr : process_response { st with api_calls := st.api_calls + 1 } j it
          = .ok (.done false { st with api_calls := st.api_calls + 1 }) := by
        unfold process_response
        rw [if_pos (by simp [hcont])]
      rw [hpr]

def c6Start : Agent := Agent.init "key" default_model 10

/-- C6 is refuted for the unparseable-body case: when the backend answers
200 with a body `json::parse` rejects, the parse exception is caught
nowhere in `call_api`, `run_iteration` or `run`, so the run does not
terminate with a failure indication leaving history and session intact —
the exception escapes the run (and, in this program, `main`). -/
theorem c6_counterexample :
    Agent.run c6Start "hi" (fun _ => .unparseable) = .error "json parse error" := rfl

theorem run_iteration_fail_at : ∀ (fuel : Nat) (st : Agent)
    (oracle : Int → BackendResult) (it k : Int),
    (k - it).toNat < fuel →
    1 ≤ it → it ≤ k → k ≤ st.max_iterations →
    (∀ i : Int, it ≤ i → i < k → GoodToolUseResponse (oracle i)) →
    (oracle k = .badStatus ∨
     ∃ j, oracle k = .parsed j ∧
          (jsonEmpty j = true ∨ jsonContains j "content" = false)) →
    ∃ st2 ext,
      run_iteration fuel st oracle it = .ok (false, st2) ∧
      st2.api_calls = st.api_calls + ((k - it).toNat + 1) ∧
      st2.conversation_history = st.conversation_history ++ ext ∧
      ToolPairs ext (k - it).toNat ∧
      st2.tool_registry = st.tool_registry ∧
      st2.api_key = st.api_key ∧
      st2.model = st.model ∧
      st2.max_iterations = st.max_iterations := by
  intro fuel
  induction fuel with
  | zero =>
    intro st oracle it k hfuel h1 hik hkm hpre hfail
    omega
  | succ n ih =>
    intro st oracle it k hfuel h1 hik hkm hpre hfail
    by_cases hek : it = k
    · subst hek
      have hstep := run_iteration_failed_first st oracle n it hfail
      have hcnt : (it - it).toNat = 0 := by omega
      refine ⟨{ st with api_calls := st.api_calls + 1 }, [], hstep, ?_,
        by simp, ?_, rfl, rfl, rfl, rfl⟩
      · rw [hcnt]
      · rw [hcnt]
        exact ToolPairs.nil
    · have hik2 : it < k := by omega
      obtain ⟨j, pre, b, post, hj, hcont, hbs, hpre2, htu, ⟨nm, hnm⟩, ⟨idv, hid⟩⟩ :=
        hpre it (le_refl it) hik2
      have hje : jsonEmpty j = false := jsonEmpty_false_of_contains hcont
      have hlt : it < st.max_iterations := by omega
      have hprr := process_response_tu { st with api_calls := st.api_calls + 1 } it j
        pre post b nm idv hcont hbs hpre2 htu hnm hid
      have hpr2 : process_response { st with api_calls := st.api_calls + 1 } j it
          = .ok (.recurse (toolStepState { st with api_calls := st.api_calls + 1 } nm
              (jGet b "input") (pre ++ [b]) idv)) := by
        rw [hprr]
        rw [if_pos (show it < ({ st with api_calls := st.api_calls + 1 } : Agent).max_iterations
          from hlt)]
      have hstep : run_iteration (n + 1) st oracle it
          = run_iteration n (toolStepState { st with api_calls := st.api_calls + 1 } nm
              (jGet b "input") (pre ++ [b]) idv) oracle (it + 1) := by
        simp only [run_iteration]
        rw [hj]
        simp only [call_api]
        rw [if_neg (by simp [hje]), hpr2]
      have hmaxS : (toolStepState { st with api_calls := st.api_calls + 1 } nm
          (jGet b "input") (pre ++ [b]) idv).max_iterations = st.max_iterations := rfl
      obtain ⟨st2, ext, hrun2, hcalls2, hhist2, hpairs2, hreg2, hkey2, hmodel2, hmax2⟩ :=
        ih (toolStepState { st with api_calls := st.api_calls + 1 } nm
              (jGet b "input") (pre ++ [b]) idv) oracle (it + 1) k
          (by omega) (by omega) (by omega) (by rw [hmaxS]; omega)
          (by
            intro i hi1 hi2
            exact hpre i (by omega) hi2)
          hfail
      refine ⟨st2,
        assistantMsg (pre ++ [b]) ::
          toolResultMsg idv (st.tool_registry.execute nm (jGet b "input")).fst :: ext,
        ?_, ?_, ?_, ?_, ?_, ?_, ?_, ?_⟩
      · rw [hstep]
        exact hrun2
      · rw [hcalls2]
        have e1 : (toolStepState { st with api_calls := st.api_calls + 1 } nm
            (jGet b "input") (pre ++ [b]) idv).api_calls = st.api_calls + 1 := rfl
        rw [e1]
        omega
      · rw [hhist2, toolStepState_history]
        simp
      · have hcnt : (k - it).toNat = ((k - (it + 1)).toNat) + 1 := by omega
        rw [hcnt]
        refine ToolPairs.cons _ _ _ _ (role_assistantMsg _) ?_ (role_toolResultMsg _ _) ?_
          hpairs2
        · exact ⟨b, by simp [msgBlocks_assistantMsg], htu⟩
        · exact ⟨.obj [("type", .str "tool_result"), ("tool_use_id", .str idv),
                       ("content", .str (st.tool_registry.execute nm (jGet b "input")).fst)],
                 rfl, rfl⟩
      · rw [hreg2]
        exact execute_snd st.tool_registry nm (jGet b "input")
      · rw [hkey2]
        rfl
      · rw [hmodel2]
        rfl
      · rw [hmax2, hmaxS]

/-- C6 (amended): for every run in which a backend call — the first one,
or any later one reached through tool-use turns — fails with a non-success
transport status or with a parseable success body that is empty or lacks
`content`, the run terminates immediately with the failure outcome
`false`, Conversation History is unchanged for that turn (it equals the
prior history plus the appended user message and the tool pairs of the
earlier completed turns; after a first-call failure, plus only the user
message), the registry, credential, model and bound are untouched, and the
session supports a subsequent successful run.  An unparseable success body
instead raises an exception that escapes the run (see the
counterexample). -/
theorem c6_transport_failure (st : Agent) (input : String) (k : Int)
    (oracle : Int → BackendResult)
    (hk1 : 1 ≤ k) (hkmax : k ≤ st.max_iterations)
    (hbefore : ∀ i : Int, 1 ≤ i → i < k → GoodToolUseResponse (oracle i))
    (hfail : oracle k = .badStatus ∨
         ∃ j, oracle k = .parsed j ∧
              (jsonEmpty j = true ∨ jsonContains j "content" = false)) :
    ∃ st2 ext,
      Agent.run st input oracle = .ok (false, st2) ∧
      st2.api_calls = st.api_calls + k.toNat ∧
      st2.conversation_history
        = st.conversation_history ++ userTextMsg input :: ext ∧
      ToolPairs ext (k - 1).toNat ∧
      st2.tool_registry = st.tool_registry ∧
      st2.api_key = st.api_key ∧
      st2.model = st.model ∧
      st2.max_iterations = st.max_iterations ∧
      ∀ (input2 : String) (blocks : List JsonVal) (oracle2 : Int → BackendResult),
        oracle2 1 = .parsed (.obj [("content", .arr blocks)]) →
        (∀ x ∈ blocks, isToolUseBlock x = false) →
        ∃ st3, Agent.run st2 input2 oracle2 = .ok (true, st3) := by
  obtain ⟨st2, ext, hrun, hcalls, hhist, hpairs, hreg, hkey, hmodel, hmax⟩ :=
    run_iteration_fail_at (st.max_iterations.toNat + 1)
      (pushMsg st (userTextMsg input)) oracle 1 k
      (show (k - 1).toNat < st.max_iterations.toNat + 1 by omega)
      (le_refl 1) hk1 hkmax hbefore hfail
  refine ⟨st2, ext, hrun, ?_, ?_, hpairs, hreg, hkey, hmodel, hmax, ?_⟩
  · have h2 : st2.api_calls = st.api_calls + ((k - 1).toNat + 1) := hcalls
    omega
  · have h3 : st2.conversation_history
        = (st.conversation_history ++ [userTextMsg input]) ++ ext := hhist
    rw [h3]
    simp
  · intro input2 blocks oracle2 ho2 hnt
    exact ⟨_, run_text_only st2 input2 oracle2 blocks ho2 hnt⟩

def c6WStart : Agent := Agent.init "w6" default_model 3

/-- c6WOracle answers the first call with a tool-use response and fails
the second call with a non-success status (a mid-run transport error). -/
def c6WOracle : Int → BackendResult :=
  fun i =>
    if i = 1 then .parsed (.obj [("content", .arr [cxTuBlock])])
    else .badStatus

theorem c6_transport_failure_witness :
    ∃ st2 ext,
      Agent.run c6WStart "hi" c6WOracle = .ok (false, st2) ∧
      st2.api_calls = c6WStart.api_calls + (2 : Int).toNat ∧
      st2.conversation_history
        = c6WStart.conversation_history ++ userTextMsg "hi" :: ext ∧
      ToolPairs ext ((2 : Int) - 1).toNat ∧
      st2.tool_registry = c6WStart.tool_registry ∧
      st2.api_key = c6WStart.api_key ∧
      st2.model = c6WStart.model ∧
      st2.max_iterations = c6WStart.max_iterations ∧
      ∀ (input2 : String) (blocks : List JsonVal) (oracle2 : Int → BackendResult),
        oracle2 1 = .parsed (.obj [("content", .arr blocks)]) →
        (∀ x ∈ blocks, isToolUseBlock x = false) →
        ∃ st3, Agent.run st2 input2 oracle2 = .ok (true, st3) :=
  c6_transport_failure c6WStart "hi" 2 c6WOracle (by decide) (by decide)
    (fun i h1 h2 => by
      have hi : i = 1 := by omega
      subst hi
      exact ⟨.obj [("content", .arr [cxTuBlock])], [], cxTuBlock, [], rfl, rfl, rfl,
             by simp, rfl, ⟨"t", rfl⟩, ⟨"id1", rfl⟩⟩)
    (Or.inl rfl)

/-- runOutcome is the only value the orchestration loop surfaces; the C++
`run` has return type `void` and discards even this boolean, so callers
observe nothing of it. -/
def runOutcome (r : Except String (Bool × Agent)) : Option Bool :=
  match r with
  | .ok p => some p.fst
  | .error _ => none

def c7St : Agent := Agent.init "k7" default_model 1

def c7TuOracle : Int → BackendResult :=
  fun _ => .parsed (.obj [("content", .arr [cxTuBlock])])

/-- C7 is refuted: a run that stops because the iteration bound was
reached and a run that stops with a transport error surface exactly the
same outcome — `run_iteration` returns `false` in both cases (and the
`void`-returning `run` discards even that), so nothing distinguishable
reaches the caller; the two differ only in console output. -/
theorem c7_counterexample :
    runOutcome (Agent.run c7St "hi" c7TuOracle)
      = runOutcome (Agent.run c7St "hi" (fun _ => .badStatus)) ∧
    runOutcome (Agent.run c7St "hi" c7TuOracle) = some false := ⟨rfl, rfl⟩

/-- C7 (amended): iteration-bound termination and transport-error
termination both surface the failure outcome `false` from the loop; the
same value is produced in both cases, so no surfaced value distinguishes
them. -/
theorem c7_outcomes_equal (st : Agent) (input : String)
    (oracle1 oracle2 : Int → BackendResult)
    (hpos : 1 ≤ st.max_iterations)
    (htu : ∀ k : Int, 1 ≤ k → k ≤ st.max_iterations → GoodToolUseResponse (oracle1 k))
    (herr : oracle2 1 = .badStatus) :
    runOutcome (Agent.run st input oracle1) = some false ∧
    runOutcome (Agent.run st input oracle2) = some false := by
  constructor
  · obtain ⟨st2, ext, hrun, h1, h2, h3, h4⟩ :=
      run_iteration_all_tu (st.max_iterations.toNat + 1)
        (pushMsg st (userTextMsg input)) oracle1 1
        (show (st.max_iterations - 1).toNat < st.max_iterations.toNat + 1 by omega)
        (le_refl 1) hpos htu
    have h5 : Agent.run st input oracle1 = .ok (false, st2) := hrun
    rw [h5]
    rfl
  · have h6 : Agent.run st input oracle2
        = .ok (false, { pushMsg st (userTextMsg input) with
            api_calls := st.api_calls + 1 }) :=
      run_iteration_failed_first (pushMsg st (userTextMsg input)) oracle2
        st.max_iterations.toNat 1 (Or.inl herr)
    rw [h6]
    rfl

theorem c7_outcomes_equal_witness :
    runOutcome (Agent.run c7St "hi" c7TuOracle) = some false ∧
    runOutcome (Agent.run c7St "hi" (fun _ => .badStatus)) = some false :=
  c7_outcomes_equal c7St "hi" c7TuOracle (fun _ => .badStatus) (by decide)
    (fun k _ _ =>
      ⟨.obj [("content", .arr [cxTuBlock])], [], cxTuBlock, [], rfl, rfl, rfl,
       by simp, rfl, ⟨"t", rfl⟩, ⟨"id1", rfl⟩⟩)
    rfl
